import Mathlib

/-
Verification development for the availability-computation engine of
tools/calendar.go (busy-time aggregation, interval merging, slot search).

Instants are modelled as integer minutes; day 0 (minutes 0 .. 1439) is taken
to be a Monday, so weekday 5 is Saturday and weekday 6 is Sunday.  The Go
code works in a fixed-offset location, so `time.Date(Y, M, D, h, m, 0, 0, loc)`
for the day containing instant `t` is `1440 * (t / 1440) + 60 * h + m`, and
`AddDate(0, 0, 1)` is `+ 1440`.
-/

/-- Structure `timeSlot` of tools/calendar.go: one busy or free interval. -/
structure timeSlot where
  Start : Int
  End : Int
deriving DecidableEq, Repr

/-- Structure `busyTime` of tools/calendar.go: one busy interval with event details. -/
structure busyTime where
  Start : Int
  End : Int
  Summary : String
  Organizer : String
  CalendarId : String
deriving DecidableEq, Repr

/-- Blank characters Go `fmt.Sscanf` skips before a `%d` verb. -/
def isScanSpace (c : Char) : Bool := c == ' ' || c == '\t'

/-- ASCII decimal digit test. -/
def isDigitCh (c : Char) : Bool := '0' ≤ c && c ≤ '9'

/-- Value of a digit run, accumulating left to right. -/
def digitsToVal : List Char → Int → Int
  | [], acc => acc
  | c :: cs, acc => digitsToVal cs (10 * acc + ((c.toNat : Int) - ('0'.toNat : Int)))

/-- Model of `fmt.Sscanf(s, "%d", &x)`: skip leading blanks, optional sign,
    then a maximal nonempty run of decimal digits; `none` models a scan error
    (no digits found). Trailing unscanned characters are not an error. -/
def scanInt (cs : List Char) : Option Int :=
  let cs1 := cs.dropWhile isScanSpace
  match cs1 with
  | '-' :: rest =>
      if rest.takeWhile isDigitCh = [] then none
      else some (-(digitsToVal (rest.takeWhile isDigitCh) 0))
  | '+' :: rest =>
      if rest.takeWhile isDigitCh = [] then none
      else some (digitsToVal (rest.takeWhile isDigitCh) 0)
  | _ =>
      if cs1.takeWhile isDigitCh = [] then none
      else some (digitsToVal (cs1.takeWhile isDigitCh) 0)

/-- Model of Go `strings.Split(s, ":")` on the character list of `s`. -/
def splitCols : List Char → List (List Char)
  | [] => [[]]
  | c :: rest =>
    match splitCols rest with
    | [] => [[]]
    | g :: gs => if c = ':' then [] :: g :: gs else (c :: g) :: gs

/-- Function `parseTimeString` of tools/calendar.go: split on ":", require exactly two
    fields, scan each with `%d`; on failure the hour defaults to 9 and the
    minute to 0 (a malformed string as a whole yields (9, 0)). -/
def parseTimeString (timeStr : String) : Int × Int :=
  match splitCols timeStr.data with
  | [p0, p1] => ((scanInt p0).getD 9, (scanInt p1).getD 0)
  | _ => (9, 0)

/-- One step of the in-place exchange sort of `mergeTimeSlots`: threads the
    current slot `i` (here `x`) through the remaining slots, swapping whenever
    `slots[i].Start.After(slots[j].Start)`; returns the final slot `i` and the
    updated remainder. -/
def selectPass (x : timeSlot) : List timeSlot → timeSlot × List timeSlot
  | [] => (x, [])
  | y :: ys =>
    if y.Start < x.Start then
      let p := selectPass y ys
      (p.1, x :: p.2)
    else
      let p := selectPass x ys
      (p.1, y :: p.2)

/-- The exchange sort of `mergeTimeSlots`; the fuel argument is always the
    length of the list being sorted. -/
def sortSlotsAux : Nat → List timeSlot → List timeSlot
  | _, [] => []
  | 0, _ :: _ => []
  | fuel + 1, x :: xs =>
    let p := selectPass x xs
    p.1 :: sortSlotsAux fuel p.2

/-- The sort phase of `mergeTimeSlots` (sort by `Start` ascending). -/
def sortSlots (l : List timeSlot) : List timeSlot := sortSlotsAux l.length l

/-- The left-to-right coalescing scan of `mergeTimeSlots`: extend the current
    merged interval whenever the next start is `≤` the current end (overlap or
    exact touch), otherwise emit it and start a new one. -/
def mergeLoop : timeSlot → List timeSlot → List timeSlot
  | last, [] => [last]
  | last, s :: rest =>
    if s.Start ≤ last.End then
      mergeLoop ⟨last.Start, if last.End < s.End then s.End else last.End⟩ rest
    else
      last :: mergeLoop s rest

/-- Function `mergeTimeSlots` of tools/calendar.go. -/
def mergeTimeSlots (slots : List timeSlot) : List timeSlot :=
  match sortSlots slots with
  | [] => []
  | x :: xs => mergeLoop x xs

/-- Index of the calendar day containing instant `t`. -/
def dayIdx (t : Int) : Int := t / 1440

/-- Model of `time.Time.Weekday()` in the minutes model: day 0 is a Monday, so 5 is
    Saturday and 6 is Sunday. -/
def weekday (t : Int) : Int := dayIdx t % 7

/-- Inner per-day scanning loop of `findAvailableSlots`: test the candidate
    `[currentTime, currentTime + duration]` against the busy set; on the first
    conflict (`currentTime < busy.End && busy.Start < slotEnd`) move the cursor
    to the busy interval's end; on acceptance record the slot, stop if
    `maxResults` is reached, else advance the cursor by 30 minutes. -/
def scanDay (busySlots : List timeSlot) (duration dayEnd maxResults : Int) :
    Nat → Int → List timeSlot → List timeSlot
  | 0, _, acc => acc
  | fuel + 1, currentTime, acc =>
    if currentTime + duration ≤ dayEnd then
      match busySlots.find? (fun b => currentTime < b.End && b.Start < currentTime + duration) with
      | some b =>
          scanDay busySlots duration dayEnd maxResults fuel
            (if currentTime < b.End then b.End else currentTime) acc
      | none =>
          let acc2 := acc ++ [⟨currentTime, currentTime + duration⟩]
          if maxResults ≤ (acc2.length : Int) then acc2
          else scanDay busySlots duration dayEnd maxResults fuel (currentTime + 30) acc2
    else acc

/-- Outer day-by-day loop of `findAvailableSlots`: while the date cursor is
    before `endDate` and fewer than `maxResults` slots are recorded, skip
    Saturdays and Sundays, clamp the day's working-hours window to the
    requested range, scan the day, and advance the cursor by one day.
    `wsH`/`wsM` and `weH`/`weM` are the parsed working-hours start and end. -/
def findSlotsLoop (startDate endDate : Int) (busySlots : List timeSlot)
    (duration wsH wsM weH weM maxResults : Int) :
    Nat → Int → List timeSlot → List timeSlot
  | 0, _, acc => acc
  | fuel + 1, currentDate, acc =>
    if currentDate < endDate ∧ (acc.length : Int) < maxResults then
      if weekday currentDate = 5 ∨ weekday currentDate = 6 then
        findSlotsLoop startDate endDate busySlots duration wsH wsM weH weM maxResults fuel
          (currentDate + 1440) acc
      else
        let mid := 1440 * dayIdx currentDate
        let dayStart0 := mid + 60 * wsH + wsM
        let dayEnd0 := mid + 60 * weH + weM
        let dayStart := if dayStart0 < startDate then startDate else dayStart0
        let dayEnd := if endDate < dayEnd0 then endDate else dayEnd0
        let acc2 := scanDay busySlots duration dayEnd maxResults
          (dayEnd - duration - dayStart + 2).toNat dayStart acc
        findSlotsLoop startDate endDate busySlots duration wsH wsM weH weM maxResults fuel
          (currentDate + 1440) acc2
    else acc

/-- Fuel sufficient for the outer loop: one unit per calendar day of the
    range, plus one for the final test. -/
def stdFuel (startDate endDate : Int) : Nat :=
  ((endDate - startDate + 1439) / 1440 + 1).toNat

/-- Function `findAvailableSlots` of tools/calendar.go at an explicit outer fuel. -/
def findAvailableSlotsFuel (fuel : Nat) (startDate endDate : Int)
    (busySlots : List timeSlot) (duration : Int) (workStart workEnd : String)
    (maxResults : Int) : List timeSlot :=
  findSlotsLoop startDate endDate busySlots duration
    (parseTimeString workStart).1 (parseTimeString workStart).2
    (parseTimeString workEnd).1 (parseTimeString workEnd).2
    maxResults fuel startDate []

/-- Function `findAvailableSlots` of tools/calendar.go. -/
def findAvailableSlots (startDate endDate : Int) (busySlots : List timeSlot)
    (duration : Int) (workStart workEnd : String) (maxResults : Int) : List timeSlot :=
  findAvailableSlotsFuel (stdFuel startDate endDate) startDate endDate busySlots duration
    workStart workEnd maxResults

/-- Working-hours defaulting of `calendarFindTimeSlotHandler`: only the empty
    string is replaced by "09:00" / "17:00"; everything else is passed to
    `parseTimeString` as is. -/
def resolveWorkingHours (workingHoursStart workingHoursEnd : String) :
    (Int × Int) × (Int × Int) :=
  let ws := if workingHoursStart = "" then "09:00" else workingHoursStart
  let we := if workingHoursEnd = "" then "17:00" else workingHoursEnd
  (parseTimeString ws, parseTimeString we)

/-- Test whether the first list starts with the second (helper for the `strings.Contains` model). -/
def startsWithSub : List Char → List Char → Bool
  | _, [] => true
  | [], _ :: _ => false
  | c :: cs, d :: ds => c == d && startsWithSub cs ds

/-- Model of Go `strings.Contains` on character lists. -/
def containsSub : List Char → List Char → Bool
  | [], needle => needle.isEmpty
  | c :: rest, needle => startsWithSub (c :: rest) needle || containsSub rest needle

/-- Lower-cased character list of a string (model of `strings.ToLower`). -/
def lowerStr (s : String) : List Char := s.data.map Char.toLower

/-- One event as returned by a calendar fetch; `none` instants model empty
    `Start.DateTime` / `End.DateTime` strings (all-day events). -/
structure eventItem where
  Location : String
  StartDT : Option Int
  EndDT : Option Int
  Summary : String
  Organizer : String
deriving DecidableEq, Repr

/-- The per-event body of the collection loop of `calendarFindTimeSlotHandler`:
    drop events failing the room filter (case-insensitive substring on the
    location) and events without both instants; each qualifying event yields
    one busy interval and one detail record tagged with its calendar id. -/
def eventsToBusy (room calId : String) : List eventItem → List timeSlot × List busyTime
  | [] => ([], [])
  | e :: es =>
    let rest := eventsToBusy room calId es
    if room != "" && !(containsSub (lowerStr e.Location) (lowerStr room)) then rest
    else
      match e.StartDT, e.EndDT with
      | some s, some t =>
        (⟨s, t⟩ :: rest.1, ⟨s, t, e.Summary, e.Organizer, calId⟩ :: rest.2)
      | _, _ => rest

/-- The per-calendar collection loop of `calendarFindTimeSlotHandler`: each
    calendar comes with its fetch result, where `none` models a fetch error,
    which the loop skips with `continue`; successful calendars contribute
    their qualifying events in order. -/
def collectCalendars (room : String) :
    List (String × Option (List eventItem)) → List timeSlot × List busyTime
  | [] => ([], [])
  | (calId, fetchRes) :: rest =>
    let tail := collectCalendars room rest
    match fetchRes with
    | none => tail
    | some events =>
      let here := eventsToBusy room calId events
      (here.1 ++ tail.1, here.2 ++ tail.2)

/-- Membership of instant `t` in a half-open interval. -/
def inSlot (t : Int) (s : timeSlot) : Prop := s.Start ≤ t ∧ t < s.End

/-- Instant `t` is covered by some interval of `l`. -/
def covers (l : List timeSlot) (t : Int) : Prop := ∃ s ∈ l, inSlot t s

/-- Well-formed wall-clock hour/minute pair. -/
def validHM (h m : Int) : Prop := 0 ≤ h ∧ h ≤ 23 ∧ 0 ≤ m ∧ m ≤ 59

/-- A valid slot for the given search parameters: exactly `duration` long,
    contained in the clamped working-hours window of some weekday `d`, and
    without nonzero overlap with any busy interval. -/
def slotOK (startDate endDate duration wsH wsM weH weM : Int)
    (busy : List timeSlot) (s : timeSlot) : Prop :=
  s.End = s.Start + duration ∧
  (∃ d : Int, d % 7 ≠ 5 ∧ d % 7 ≠ 6 ∧
    max (1440 * d + 60 * wsH + wsM) startDate ≤ s.Start ∧
    s.End ≤ min (1440 * d + 60 * weH + weM) endDate) ∧
  ∀ b ∈ busy, ¬(s.Start < b.End ∧ b.Start < s.End)

instance (h m : Int) : Decidable (validHM h m) := by
  unfold validHM
  infer_instance

/-- Validity of a candidate start instant `t` for the search parameters, with
    the weekday witness fixed to the start's own calendar day (the only
    possible witness once the working hours are wall-clock times). -/
def slotOKAt (startDate endDate duration wsH wsM weH weM : Int)
    (busy : List timeSlot) (t : Int) : Prop :=
  dayIdx t % 7 ≠ 5 ∧ dayIdx t % 7 ≠ 6 ∧
  max (1440 * dayIdx t + 60 * wsH + wsM) startDate ≤ t ∧
  t + duration ≤ min (1440 * dayIdx t + 60 * weH + weM) endDate ∧
  ∀ b ∈ busy, ¬(t < b.End ∧ b.Start < t + duration)

instance (startDate endDate duration wsH wsM weH weM : Int)
    (busy : List timeSlot) (t : Int) :
    Decidable (slotOKAt startDate endDate duration wsH wsM weH weM busy t) := by
  unfold slotOKAt
  infer_instance

/-- The valid slot-start instants of the range at one-minute granularity:
    the integer minutes `t` of `[startDate, endDate)` whose candidate slot
    `[t, t + duration]` is valid.  This is the specification-side notion of
    "count of all valid slots in range". -/
def validStarts (startDate endDate duration wsH wsM weH weM : Int)
    (busy : List timeSlot) : List Int :=
  ((List.range (endDate - startDate).toNat).map (fun k : Nat => startDate + (k : Int))).filter
    (fun t => decide (slotOKAt startDate endDate duration wsH wsM weH weM busy t))

/- ### Lemmas about the exchange sort -/

theorem selectPass_length (x : timeSlot) (l : List timeSlot) :
    (selectPass x l).2.length = l.length := by
  induction l generalizing x with
  | nil => simp [selectPass]
  | cons y ys ih =>
    by_cases h : y.Start < x.Start <;> simp [selectPass, h, ih]

theorem selectPass_perm (x : timeSlot) (l : List timeSlot) :
    List.Perm ((selectPass x l).1 :: (selectPass x l).2) (x :: l) := by
  induction l generalizing x with
  | nil => simp [selectPass]
  | cons y ys ih =>
    by_cases h : y.Start < x.Start
    · simp only [selectPass, if_pos h]
      exact (List.Perm.swap x _ _).trans ((ih y).cons x)
    · simp only [selectPass, if_neg h]
      exact (List.Perm.swap y _ _).trans (((ih x).cons y).trans (List.Perm.swap x y ys))

theorem selectPass_start_le (x : timeSlot) (l : List timeSlot) :
    (selectPass x l).1.Start ≤ x.Start ∧ ∀ z ∈ l, (selectPass x l).1.Start ≤ z.Start := by
  induction l generalizing x with
  | nil => simp [selectPass]
  | cons y ys ih =>
    by_cases h : y.Start < x.Start
    · simp only [selectPass, if_pos h]
      obtain ⟨h1, h2⟩ := ih y
      refine ⟨le_trans h1 (le_of_lt h), ?_⟩
      intro z hz
      rcases List.mem_cons.mp hz with rfl | hz'
      · exact h1
      · exact h2 z hz'
    · simp only [selectPass, if_neg h]
      obtain ⟨h1, h2⟩ := ih x
      refine ⟨h1, ?_⟩
      intro z hz
      rcases List.mem_cons.mp hz with rfl | hz'
      · exact le_trans h1 (not_lt.mp h)
      · exact h2 z hz'

theorem selectPass_eq_self (x : timeSlot) (l : List timeSlot)
    (h : ∀ z ∈ l, x.Start ≤ z.Start) : selectPass x l = (x, l) := by
  induction l with
  | nil => simp [selectPass]
  | cons y ys ih =>
    have hxy : ¬ y.Start < x.Start := not_lt.mpr (h y (List.mem_cons_self y ys))
    have ih' := ih (fun z hz => h z (List.mem_cons_of_mem y hz))
    simp [selectPass, hxy, ih']

theorem sortSlotsAux_perm :
    ∀ (fuel : Nat) (l : List timeSlot), l.length = fuel →
      List.Perm (sortSlotsAux fuel l) l := by
  intro fuel
  induction fuel with
  | zero =>
    intro l hl
    have : l = [] := List.length_eq_zero.mp hl
    subst this
    simp [sortSlotsAux]
  | succ n ih =>
    intro l hl
    cases l with
    | nil => simp [sortSlotsAux]
    | cons x xs =>
      simp only [sortSlotsAux]
      have hlen : (selectPass x xs).2.length = n := by
        rw [selectPass_length]
        simpa using hl
      exact ((ih _ hlen).cons _).trans (selectPass_perm x xs)

theorem sortSlots_perm (l : List timeSlot) : List.Perm (sortSlots l) l :=
  sortSlotsAux_perm l.length l rfl

theorem sortSlotsAux_sorted :
    ∀ (fuel : Nat) (l : List timeSlot), l.length = fuel →
      List.Pairwise (fun a b : timeSlot => a.Start ≤ b.Start) (sortSlotsAux fuel l) := by
  intro fuel
  induction fuel with
  | zero =>
    intro l hl
    have : l = [] := List.length_eq_zero.mp hl
    subst this
    simp [sortSlotsAux]
  | succ n ih =>
    intro l hl
    cases l with
    | nil => simp [sortSlotsAux]
    | cons x xs =>
      simp only [sortSlotsAux]
      rw [List.pairwise_cons]
      have hlen : (selectPass x xs).2.length = n := by
        rw [selectPass_length]
        simpa using hl
      refine ⟨?_, ih _ hlen⟩
      intro b hb
      have hb2 : b ∈ (selectPass x xs).2 := (sortSlotsAux_perm n _ hlen).mem_iff.mp hb
      have hb3 : b ∈ x :: xs :=
        (selectPass_perm x xs).mem_iff.mp (List.mem_cons_of_mem _ hb2)
      obtain ⟨h1, h2⟩ := selectPass_start_le x xs
      rcases List.mem_cons.mp hb3 with rfl | hb4
      · exact h1
      · exact h2 b hb4

theorem sortSlots_sorted (l : List timeSlot) :
    List.Pairwise (fun a b : timeSlot => a.Start ≤ b.Start) (sortSlots l) :=
  sortSlotsAux_sorted l.length l rfl

theorem sortSlotsAux_eq_self :
    ∀ (fuel : Nat) (l : List timeSlot), l.length = fuel →
      List.Pairwise (fun a b : timeSlot => a.Start ≤ b.Start) l →
      sortSlotsAux fuel l = l := by
  intro fuel
  induction fuel with
  | zero =>
    intro l hl _
    have : l = [] := List.length_eq_zero.mp hl
    subst this
    simp [sortSlotsAux]
  | succ n ih =>
    intro l hl hs
    cases l with
    | nil => simp [sortSlotsAux]
    | cons x xs =>
      rw [List.pairwise_cons] at hs
      simp only [sortSlotsAux]
      rw [selectPass_eq_self x xs hs.1]
      simp only []
      rw [ih xs (by simpa using hl) hs.2]

theorem sortSlots_eq_self (l : List timeSlot)
    (h : List.Pairwise (fun a b : timeSlot => a.Start ≤ b.Start) l) :
    sortSlots l = l :=
  sortSlotsAux_eq_self l.length l rfl h

/- ### Lemmas about the coalescing scan -/

theorem covers_cons (a : timeSlot) (l : List timeSlot) (t : Int) :
    covers (a :: l) t ↔ inSlot t a ∨ covers l t := by
  simp [covers, List.mem_cons, or_and_right, exists_or]

theorem covers_perm {l l' : List timeSlot} (h : List.Perm l l') (t : Int) :
    covers l t ↔ covers l' t := by
  simp [covers, h.mem_iff]

theorem mergeLoop_start_ge :
    ∀ (rest : List timeSlot) (last : timeSlot),
      List.Pairwise (fun a b : timeSlot => a.Start ≤ b.Start) (last :: rest) →
      ∀ w ∈ mergeLoop last rest, last.Start ≤ w.Start := by
  intro rest
  induction rest with
  | nil =>
    intro last _ w hw
    simp [mergeLoop] at hw
    subst hw
    exact le_refl _
  | cons s rest ih =>
    intro last hpw w hw
    rw [List.pairwise_cons] at hpw
    obtain ⟨hhead, htail⟩ := hpw
    by_cases hc : s.Start ≤ last.End
    · simp only [mergeLoop, if_pos hc] at hw
      have hp' : List.Pairwise (fun a b : timeSlot => a.Start ≤ b.Start)
          (timeSlot.mk last.Start (if last.End < s.End then s.End else last.End) :: rest) := by
        rw [List.pairwise_cons]
        refine ⟨?_, (List.pairwise_cons.mp htail).2⟩
        intro z hz
        exact hhead z (List.mem_cons_of_mem s hz)
      exact ih _ hp' w hw
    · simp only [mergeLoop, if_neg hc] at hw
      rcases List.mem_cons.mp hw with rfl | hw'
      · exact le_refl _
      · exact le_trans (hhead s (List.mem_cons_self s rest)) (ih s htail w hw')

theorem mergeLoop_gap :
    ∀ (rest : List timeSlot) (last : timeSlot),
      List.Pairwise (fun a b : timeSlot => a.Start ≤ b.Start) (last :: rest) →
      List.Pairwise (fun a b : timeSlot => a.End < b.Start) (mergeLoop last rest) := by
  intro rest
  induction rest with
  | nil =>
    intro last _
    simp [mergeLoop]
  | cons s rest ih =>
    intro last hpw
    rw [List.pairwise_cons] at hpw
    obtain ⟨hhead, htail⟩ := hpw
    by_cases hc : s.Start ≤ last.End
    · simp only [mergeLoop, if_pos hc]
      have hp' : List.Pairwise (fun a b : timeSlot => a.Start ≤ b.Start)
          (timeSlot.mk last.Start (if last.End < s.End then s.End else last.End) :: rest) := by
        rw [List.pairwise_cons]
        refine ⟨?_, (List.pairwise_cons.mp htail).2⟩
        intro z hz
        exact hhead z (List.mem_cons_of_mem s hz)
      exact ih _ hp'
    · simp only [mergeLoop, if_neg hc]
      rw [List.pairwise_cons]
      refine ⟨?_, ih s htail⟩
      intro w hw
      exact lt_of_lt_of_le (not_le.mp hc) (mergeLoop_start_ge rest s htail w hw)

theorem mergeLoop_wf :
    ∀ (rest : List timeSlot) (last : timeSlot),
      (∀ z ∈ last :: rest, z.Start ≤ z.End) →
      ∀ w ∈ mergeLoop last rest, w.Start ≤ w.End := by
  intro rest
  induction rest with
  | nil =>
    intro last h w hw
    simp [mergeLoop] at hw
    subst hw
    exact h _ (List.mem_cons_self _ _)
  | cons s rest ih =>
    intro last h w hw
    by_cases hc : s.Start ≤ last.End
    · simp only [mergeLoop, if_pos hc] at hw
      refine ih _ ?_ w hw
      intro z hz
      rcases List.mem_cons.mp hz with rfl | hz'
      · have h1 : last.Start ≤ last.End := h _ (List.mem_cons_self _ _)
        by_cases hm : last.End < s.End <;> simp [hm] <;> omega
      · exact h z (List.mem_cons_of_mem last (List.mem_cons_of_mem s hz'))
    · simp only [mergeLoop, if_neg hc] at hw
      rcases List.mem_cons.mp hw with rfl | hw'
      · exact h _ (List.mem_cons_self _ _)
      · refine ih s ?_ w hw'
        intro z hz
        exact h z (List.mem_cons_of_mem last hz)

theorem mergeLoop_covers :
    ∀ (rest : List timeSlot) (last : timeSlot),
      List.Pairwise (fun a b : timeSlot => a.Start ≤ b.Start) (last :: rest) →
      ∀ t, covers (mergeLoop last rest) t ↔ inSlot t last ∨ covers rest t := by
  intro rest
  induction rest with
  | nil =>
    intro last _ t
    simp [mergeLoop, covers_cons, covers]
  | cons s rest ih =>
    intro last hpw t
    rw [List.pairwise_cons] at hpw
    obtain ⟨hhead, htail⟩ := hpw
    by_cases hc : s.Start ≤ last.End
    · simp only [mergeLoop, if_pos hc]
      have hp' : List.Pairwise (fun a b : timeSlot => a.Start ≤ b.Start)
          (timeSlot.mk last.Start (if last.End < s.End then s.End else last.End) :: rest) := by
        rw [List.pairwise_cons]
        refine ⟨?_, (List.pairwise_cons.mp htail).2⟩
        intro z hz
        exact hhead z (List.mem_cons_of_mem s hz)
      rw [ih _ hp' t, covers_cons]
      have hls : last.Start ≤ s.Start := hhead s (List.mem_cons_self s rest)
      have key : inSlot t (timeSlot.mk last.Start (if last.End < s.End then s.End else last.End)) ↔
          inSlot t last ∨ inSlot t s := by
        by_cases hm : last.End < s.End <;> simp [inSlot, hm] <;> omega
      rw [key, or_assoc]
    · simp only [mergeLoop, if_neg hc]
      rw [covers_cons, ih s htail t, covers_cons]

theorem mergeLoop_eq_self :
    ∀ (rest : List timeSlot) (last : timeSlot),
      List.Pairwise (fun a b : timeSlot => a.End < b.Start) (last :: rest) →
      mergeLoop last rest = last :: rest := by
  intro rest
  induction rest with
  | nil => intro last _; simp [mergeLoop]
  | cons s rest ih =>
    intro last hg
    rw [List.pairwise_cons] at hg
    have hc : ¬ s.Start ≤ last.End :=
      not_le.mpr (hg.1 s (List.mem_cons_self s rest))
    simp only [mergeLoop, if_neg hc]
    rw [ih s hg.2]

/- ### Facts about mergeTimeSlots -/

theorem merge_gap (slots : List timeSlot) :
    List.Pairwise (fun a b : timeSlot => a.End < b.Start) (mergeTimeSlots slots) := by
  unfold mergeTimeSlots
  cases hs : sortSlots slots with
  | nil => simp
  | cons x xs =>
    have := sortSlots_sorted slots
    rw [hs] at this
    exact mergeLoop_gap xs x this

theorem merge_wf (slots : List timeSlot) (h : ∀ z ∈ slots, z.Start ≤ z.End) :
    ∀ w ∈ mergeTimeSlots slots, w.Start ≤ w.End := by
  unfold mergeTimeSlots
  cases hs : sortSlots slots with
  | nil => simp
  | cons x xs =>
    refine mergeLoop_wf xs x ?_
    intro z hz
    refine h z ?_
    have : z ∈ sortSlots slots := by rw [hs]; exact hz
    exact (sortSlots_perm slots).mem_iff.mp this

theorem merge_covers (slots : List timeSlot) (t : Int) :
    covers (mergeTimeSlots slots) t ↔ covers slots t := by
  unfold mergeTimeSlots
  cases hs : sortSlots slots with
  | nil =>
    have hnil : slots = [] := by
      have := sortSlots_perm slots
      rw [hs] at this
      exact this.symm.eq_nil
    subst hnil
    simp
  | cons x xs =>
    have hsor := sortSlots_sorted slots
    rw [hs] at hsor
    rw [mergeLoop_covers xs x hsor t, ← covers_cons, ← hs]
    exact covers_perm (sortSlots_perm slots) t

theorem merge_sorted (slots : List timeSlot) (h : ∀ z ∈ slots, z.Start ≤ z.End) :
    List.Pairwise (fun a b : timeSlot => a.Start ≤ b.Start) (mergeTimeSlots slots) := by
  refine List.Pairwise.imp_of_mem ?_ (merge_gap slots)
  intro a b ha _ hab
  exact le_trans (merge_wf slots h a ha) (le_of_lt hab)

theorem mergeTimeSlots_of_gap (l : List timeSlot)
    (hg : List.Pairwise (fun a b : timeSlot => a.End < b.Start) l)
    (hs : List.Pairwise (fun a b : timeSlot => a.Start ≤ b.Start) l) :
    mergeTimeSlots l = l := by
  unfold mergeTimeSlots
  rw [sortSlots_eq_self l hs]
  cases l with
  | nil => rfl
  | cons x xs => exact mergeLoop_eq_self xs x hg

/- ### Step lemmas for the slot-search loops -/

theorem scanDay_step_stop (busy : List timeSlot) (duration dayEnd maxRes t : Int)
    (fuel : Nat) (acc : List timeSlot) (h : ¬ t + duration ≤ dayEnd) :
    scanDay busy duration dayEnd maxRes (fuel + 1) t acc = acc := by
  simp [scanDay, h]

theorem scanDay_step_conflict (busy : List timeSlot) (duration dayEnd maxRes t : Int)
    (fuel : Nat) (acc : List timeSlot) (b : timeSlot)
    (hcond : t + duration ≤ dayEnd)
    (hfind : busy.find? (fun b => t < b.End && b.Start < t + duration) = some b) :
    scanDay busy duration dayEnd maxRes (fuel + 1) t acc =
      scanDay busy duration dayEnd maxRes fuel (if t < b.End then b.End else t) acc := by
  simp [scanDay, hcond, hfind]

theorem scanDay_step_full (busy : List timeSlot) (duration dayEnd maxRes t : Int)
    (fuel : Nat) (acc : List timeSlot)
    (hcond : t + duration ≤ dayEnd)
    (hfind : busy.find? (fun b => t < b.End && b.Start < t + duration) = none)
    (hmax : maxRes ≤ ((acc ++ [timeSlot.mk t (t + duration)]).length : Int)) :
    scanDay busy duration dayEnd maxRes (fuel + 1) t acc =
      acc ++ [timeSlot.mk t (t + duration)] := by
  simp [scanDay, hcond, hfind, hmax]
  intro h
  exfalso
  simp at hmax
  omega

theorem scanDay_step_accept (busy : List timeSlot) (duration dayEnd maxRes t : Int)
    (fuel : Nat) (acc : List timeSlot)
    (hcond : t + duration ≤ dayEnd)
    (hfind : busy.find? (fun b => t < b.End && b.Start < t + duration) = none)
    (hmax : ¬ maxRes ≤ ((acc ++ [timeSlot.mk t (t + duration)]).length : Int)) :
    scanDay busy duration dayEnd maxRes (fuel + 1) t acc =
      scanDay busy duration dayEnd maxRes fuel (t + 30)
        (acc ++ [timeSlot.mk t (t + duration)]) := by
  simp [scanDay, hcond, hfind, hmax]
  intro h
  exfalso
  simp at hmax
  omega

/- ### Soundness of the inner per-day scan -/

theorem scanDay_spec (busy : List timeSlot) (duration dayEnd maxRes : Int) :
    ∀ (fuel : Nat) (t : Int) (acc : List timeSlot),
      ∃ ns : List timeSlot,
        scanDay busy duration dayEnd maxRes fuel t acc = acc ++ ns ∧
        (∀ s ∈ ns, t ≤ s.Start ∧ s.End = s.Start + duration ∧ s.End ≤ dayEnd ∧
          ∀ b ∈ busy, ¬(s.Start < b.End ∧ b.Start < s.End)) ∧
        List.Pairwise (fun a b : timeSlot => a.Start < b.Start) ns ∧
        ((acc.length : Int) < maxRes → (acc.length : Int) + ns.length ≤ maxRes) := by
  intro fuel
  induction fuel with
  | zero =>
    intro t acc
    refine ⟨[], by simp [scanDay], by simp, by simp, ?_⟩
    intro h
    simpa using le_of_lt h
  | succ fuel ih =>
    intro t acc
    by_cases hcond : t + duration ≤ dayEnd
    · cases hfind : busy.find? (fun b => t < b.End && b.Start < t + duration) with
      | some b =>
        obtain ⟨ns, h1, h2, h3, h4⟩ := ih (if t < b.End then b.End else t) acc
        rw [scanDay_step_conflict busy duration dayEnd maxRes t fuel acc b hcond hfind]
        refine ⟨ns, h1, ?_, h3, h4⟩
        intro s hs
        obtain ⟨ha, hb2, hc, hd⟩ := h2 s hs
        have hjump : t ≤ (if t < b.End then b.End else t) := by
          split <;> omega
        exact ⟨le_trans hjump ha, hb2, hc, hd⟩
      | none =>
        have hbusy : ∀ b ∈ busy, ¬(t < b.End ∧ b.Start < t + duration) := by
          intro b hb
          have := List.find?_eq_none.mp hfind b hb
          simpa using this
        by_cases hmax : maxRes ≤ ((acc ++ [timeSlot.mk t (t + duration)]).length : Int)
        · rw [scanDay_step_full busy duration dayEnd maxRes t fuel acc hcond hfind hmax]
          refine ⟨[timeSlot.mk t (t + duration)], rfl, ?_, by simp, ?_⟩
          · intro s hs
            rw [List.mem_singleton] at hs
            subst hs
            exact ⟨le_refl t, rfl, hcond, fun b hb => hbusy b hb⟩
          · intro hlt
            simp only [List.length_append, List.length_singleton] at hmax ⊢
            push_cast at hmax ⊢
            omega
        · rw [scanDay_step_accept busy duration dayEnd maxRes t fuel acc hcond hfind hmax]
          obtain ⟨ns, h1, h2, h3, h4⟩ := ih (t + 30) (acc ++ [timeSlot.mk t (t + duration)])
          refine ⟨timeSlot.mk t (t + duration) :: ns, ?_, ?_, ?_, ?_⟩
          · rw [h1, List.append_assoc, List.singleton_append]
          · intro s hs
            rcases List.mem_cons.mp hs with rfl | hs'
            · exact ⟨le_refl t, rfl, hcond, fun b hb => hbusy b hb⟩
            · obtain ⟨ha, hb2, hc, hd⟩ := h2 s hs'
              exact ⟨le_trans (by omega) ha, hb2, hc, hd⟩
          · rw [List.pairwise_cons]
            refine ⟨?_, h3⟩
            intro w hw
            exact lt_of_lt_of_le (by omega : t < t + 30) (h2 w hw).1
          · intro hlt
            have h4' := h4 (not_le.mp hmax)
            simp only [List.length_append, List.length_singleton, List.length_cons] at h4' ⊢
            push_cast at h4' ⊢
            omega
    · rw [scanDay_step_stop busy duration dayEnd maxRes t fuel acc hcond]
      refine ⟨[], by simp, by simp, by simp, ?_⟩
      intro h
      simpa using le_of_lt h

theorem findSlotsLoop_step_stop (sd ed : Int) (busy : List timeSlot)
    (dur wsH wsM weH weM mR : Int) (fuel : Nat) (cd : Int) (acc : List timeSlot)
    (h : ¬ (cd < ed ∧ (acc.length : Int) < mR)) :
    findSlotsLoop sd ed busy dur wsH wsM weH weM mR (fuel + 1) cd acc = acc := by
  simp only [findSlotsLoop]
  rw [if_neg h]

theorem findSlotsLoop_step_weekend (sd ed : Int) (busy : List timeSlot)
    (dur wsH wsM weH weM mR : Int) (fuel : Nat) (cd : Int) (acc : List timeSlot)
    (hcond : cd < ed ∧ (acc.length : Int) < mR)
    (hw : weekday cd = 5 ∨ weekday cd = 6) :
    findSlotsLoop sd ed busy dur wsH wsM weH weM mR (fuel + 1) cd acc =
      findSlotsLoop sd ed busy dur wsH wsM weH weM mR fuel (cd + 1440) acc := by
  simp only [findSlotsLoop]
  rw [if_pos hcond, if_pos hw]

theorem findSlotsLoop_step_day (sd ed : Int) (busy : List timeSlot)
    (dur wsH wsM weH weM mR : Int) (fuel : Nat) (cd : Int) (acc : List timeSlot)
    (dayStart dayEnd : Int)
    (hcond : cd < ed ∧ (acc.length : Int) < mR)
    (hw : ¬ (weekday cd = 5 ∨ weekday cd = 6))
    (hds : dayStart = if 1440 * dayIdx cd + 60 * wsH + wsM < sd then sd
        else 1440 * dayIdx cd + 60 * wsH + wsM)
    (hde : dayEnd = if ed < 1440 * dayIdx cd + 60 * weH + weM then ed
        else 1440 * dayIdx cd + 60 * weH + weM) :
    findSlotsLoop sd ed busy dur wsH wsM weH weM mR (fuel + 1) cd acc =
      findSlotsLoop sd ed busy dur wsH wsM weH weM mR fuel (cd + 1440)
        (scanDay busy dur dayEnd mR (dayEnd - dur - dayStart + 2).toNat dayStart acc) := by
  subst hds
  subst hde
  simp only [findSlotsLoop]
  rw [if_pos hcond, if_neg hw]

/- ### Soundness of the outer day-by-day loop -/

theorem findSlotsLoop_spec (sd ed : Int) (busy : List timeSlot)
    (dur wsH wsM weH weM mR : Int)
    (hdur : 0 < dur) (hws : validHM wsH wsM) (hwe : validHM weH weM) :
    ∀ (fuel : Nat) (cd : Int) (acc : List timeSlot),
      (∀ s ∈ acc, s.End ≤ 1440 * dayIdx cd) →
      (∀ s ∈ acc, slotOK sd ed dur wsH wsM weH weM busy s) →
      List.Pairwise (fun a b : timeSlot => a.Start < b.Start) acc →
      ∃ ns : List timeSlot,
        findSlotsLoop sd ed busy dur wsH wsM weH weM mR fuel cd acc = acc ++ ns ∧
        (∀ s ∈ ns, slotOK sd ed dur wsH wsM weH weM busy s ∧ 1440 * dayIdx cd ≤ s.Start) ∧
        List.Pairwise (fun a b : timeSlot => a.Start < b.Start) (acc ++ ns) ∧
        ((acc.length : Int) ≤ mR → ((acc ++ ns).length : Int) ≤ mR) := by
  obtain ⟨hws0, hws23, hwsm0, hwsm59⟩ := hws
  obtain ⟨hwe0, hwe23, hwem0, hwem59⟩ := hwe
  intro fuel
  induction fuel with
  | zero =>
    intro cd acc hEnd hOK hPW
    exact ⟨[], by simp [findSlotsLoop], by simp, by simpa using hPW, by simp⟩
  | succ fuel ih =>
    intro cd acc hEnd hOK hPW
    have hshift : dayIdx (cd + 1440) = dayIdx cd + 1 := by unfold dayIdx; omega
    by_cases hcond : cd < ed ∧ (acc.length : Int) < mR
    · by_cases hw : weekday cd = 5 ∨ weekday cd = 6
      · rw [findSlotsLoop_step_weekend sd ed busy dur wsH wsM weH weM mR fuel cd acc hcond hw]
        have hEnd' : ∀ s ∈ acc, s.End ≤ 1440 * dayIdx (cd + 1440) := by
          intro s hs
          have := hEnd s hs
          rw [hshift]
          omega
        obtain ⟨ns, h1, h2, h3, h4⟩ := ih (cd + 1440) acc hEnd' hOK hPW
        refine ⟨ns, h1, ?_, h3, h4⟩
        intro s hs
        obtain ⟨hsOK, hsStart⟩ := h2 s hs
        rw [hshift] at hsStart
        exact ⟨hsOK, by omega⟩
      · obtain ⟨dS, hdS⟩ : ∃ x : Int, x = (if 1440 * dayIdx cd + 60 * wsH + wsM < sd then sd
            else 1440 * dayIdx cd + 60 * wsH + wsM) := ⟨_, rfl⟩
        obtain ⟨dE, hdE⟩ : ∃ x : Int, x = (if ed < 1440 * dayIdx cd + 60 * weH + weM then ed
            else 1440 * dayIdx cd + 60 * weH + weM) := ⟨_, rfl⟩
        rw [findSlotsLoop_step_day sd ed busy dur wsH wsM weH weM mR fuel cd acc dS dE
          hcond hw hdS hdE]
        have hdS1 : sd ≤ dS := by rw [hdS]; split <;> omega
        have hdS2 : 1440 * dayIdx cd + 60 * wsH + wsM ≤ dS := by rw [hdS]; split <;> omega
        have hdS3 : max (1440 * dayIdx cd + 60 * wsH + wsM) sd ≤ dS := max_le hdS2 hdS1
        have hdE1 : dE ≤ ed := by rw [hdE]; split <;> omega
        have hdE2 : dE ≤ 1440 * dayIdx cd + 60 * weH + weM := by rw [hdE]; split <;> omega
        have hdE3 : dE ≤ min (1440 * dayIdx cd + 60 * weH + weM) ed := le_min hdE2 hdE1
        have hmidS : 1440 * dayIdx cd ≤ dS := by omega
        have hEmid : dE ≤ 1440 * dayIdx cd + 1439 := by omega
        have hw' := not_or.mp hw
        obtain ⟨dns, g1, g2, g3, g4⟩ :=
          scanDay_spec busy dur dE mR ((dE - dur - dS + 2).toNat) dS acc
        rw [g1]
        have hOK2 : ∀ s ∈ acc ++ dns, slotOK sd ed dur wsH wsM weH weM busy s := by
          intro s hs
          rcases List.mem_append.mp hs with hs' | hs'
          · exact hOK s hs'
          · obtain ⟨ga, gb, gc, gd⟩ := g2 s hs'
            exact ⟨gb, ⟨dayIdx cd, hw'.1, hw'.2, le_trans hdS3 ga, le_trans gc hdE3⟩, gd⟩
        have hEnd2 : ∀ s ∈ acc ++ dns, s.End ≤ 1440 * dayIdx (cd + 1440) := by
          intro s hs
          rw [hshift]
          rcases List.mem_append.mp hs with hs' | hs'
          · have := hEnd s hs'
            omega
          · have := (g2 s hs').2.2.1
            omega
        have hPW2 : List.Pairwise (fun a b : timeSlot => a.Start < b.Start) (acc ++ dns) := by
          rw [List.pairwise_append]
          refine ⟨hPW, g3, ?_⟩
          intro a ha w hw2
          have haE := (hOK a ha).1
          have haEnd := hEnd a ha
          have hwS := (g2 w hw2).1
          omega
        obtain ⟨ns', k1, k2, k3, k4⟩ := ih (cd + 1440) (acc ++ dns) hEnd2 hOK2 hPW2
        refine ⟨dns ++ ns', ?_, ?_, ?_, ?_⟩
        · rw [k1, List.append_assoc]
        · intro s hs
          rcases List.mem_append.mp hs with hs' | hs'
          · refine ⟨hOK2 s (List.mem_append.mpr (Or.inr hs')), ?_⟩
            exact le_trans hmidS (g2 s hs').1
          · obtain ⟨hsOK, hsStart⟩ := k2 s hs'
            rw [hshift] at hsStart
            exact ⟨hsOK, by omega⟩
        · rw [← List.append_assoc]
          exact k3
        · intro hlen
          have hacc2 : ((acc ++ dns).length : Int) ≤ mR := by
            have := g4 hcond.2
            simp only [List.length_append]
            push_cast
            push_cast at this
            omega
          have := k4 hacc2
          rw [← List.append_assoc]
          exact this
    · rw [findSlotsLoop_step_stop sd ed busy dur wsH wsM weH weM mR fuel cd acc hcond]
      exact ⟨[], by simp, by simp, by simpa using hPW, by simp⟩

/- ### Top-level soundness and auxiliary facts -/

theorem findAvailableSlots_sound (sd ed : Int) (busy : List timeSlot) (dur : Int)
    (ws we : String) (mR : Int) (hdur : 0 < dur)
    (hws : validHM (parseTimeString ws).1 (parseTimeString ws).2)
    (hwe : validHM (parseTimeString we).1 (parseTimeString we).2) :
    (∀ s ∈ findAvailableSlots sd ed busy dur ws we mR,
      slotOK sd ed dur (parseTimeString ws).1 (parseTimeString ws).2
        (parseTimeString we).1 (parseTimeString we).2 busy s) ∧
    List.Pairwise (fun a b : timeSlot => a.Start < b.Start)
      (findAvailableSlots sd ed busy dur ws we mR) ∧
    (0 ≤ mR → ((findAvailableSlots sd ed busy dur ws we mR).length : Int) ≤ mR) := by
  obtain ⟨ns, h1, h2, h3, h4⟩ := findSlotsLoop_spec sd ed busy dur
    (parseTimeString ws).1 (parseTimeString ws).2
    (parseTimeString we).1 (parseTimeString we).2 mR hdur hws hwe
    (stdFuel sd ed) sd [] (by simp) (by simp) (by simp)
  have heq : findAvailableSlots sd ed busy dur ws we mR = ns := by
    unfold findAvailableSlots findAvailableSlotsFuel
    rw [h1]
    simp
  rw [heq]
  refine ⟨fun s hs => (h2 s hs).1, by simpa using h3, ?_⟩
  intro hmr
  have := h4 (by simpa using hmr)
  simpa using this

theorem findSlotsLoop_ge_end (sd ed : Int) (busy : List timeSlot)
    (dur wsH wsM weH weM mR : Int) :
    ∀ (fuel : Nat) (cd : Int) (acc : List timeSlot), ed ≤ cd →
      findSlotsLoop sd ed busy dur wsH wsM weH weM mR fuel cd acc = acc := by
  intro fuel cd acc h
  cases fuel with
  | zero => rfl
  | succ n =>
    exact findSlotsLoop_step_stop sd ed busy dur wsH wsM weH weM mR n cd acc
      (fun hc => absurd hc.1 (not_lt.mpr h))

theorem slotOK_imp_at (sd ed dur wsH wsM weH weM : Int) (busy : List timeSlot)
    (s : timeSlot) (hdur : 0 < dur) (hws : validHM wsH wsM) (hwe : validHM weH weM)
    (h : slotOK sd ed dur wsH wsM weH weM busy s) :
    slotOKAt sd ed dur wsH wsM weH weM busy s.Start := by
  obtain ⟨h1, ⟨d, hd5, hd6, hlo, hhi⟩, hbusy⟩ := h
  obtain ⟨a1, a2, a3, a4⟩ := hws
  obtain ⟨b1, b2, b3, b4⟩ := hwe
  have hlo' : 1440 * d + 60 * wsH + wsM ≤ s.Start := le_trans (le_max_left _ _) hlo
  have hhi' : s.End ≤ 1440 * d + 60 * weH + weM := le_trans hhi (min_le_left _ _)
  have hdd : dayIdx s.Start = d := by
    unfold dayIdx
    omega
  unfold slotOKAt
  rw [hdd, ← h1]
  exact ⟨hd5, hd6, hlo, hhi, hbusy⟩

/- ### Convergence of the loops within the prescribed fuel -/

theorem scanDay_stable (busy : List timeSlot) (dur dE mR : Int) :
    ∀ (f1 f2 : Nat) (t : Int) (acc : List timeSlot),
      (dE - dur - t + 2).toNat ≤ f1 → (dE - dur - t + 2).toNat ≤ f2 →
      scanDay busy dur dE mR f1 t acc = scanDay busy dur dE mR f2 t acc := by
  intro f1
  induction f1 with
  | zero =>
    intro f2 t acc h1 h2
    have hc : ¬ t + dur ≤ dE := by omega
    cases f2 with
    | zero => rfl
    | succ m =>
      rw [scanDay_step_stop busy dur dE mR t m acc hc]
      rfl
  | succ n ih =>
    intro f2 t acc h1 h2
    by_cases hc : t + dur ≤ dE
    · have hm2 : (2 : Int) ≤ dE - dur - t + 2 := by omega
      cases f2 with
      | zero => exfalso; omega
      | succ m =>
        cases hfind : busy.find? (fun b => t < b.End && b.Start < t + dur) with
        | some b =>
          have hb : t < b.End := by
            have := List.find?_some hfind
            simp at this
            exact this.1
          rw [scanDay_step_conflict busy dur dE mR t n acc b hc hfind,
              scanDay_step_conflict busy dur dE mR t m acc b hc hfind]
          have hjump : t < (if t < b.End then b.End else t) := by rw [if_pos hb]; exact hb
          exact ih m _ acc (by omega) (by omega)
        | none =>
          by_cases hmax : mR ≤ ((acc ++ [timeSlot.mk t (t + dur)]).length : Int)
          · rw [scanDay_step_full busy dur dE mR t n acc hc hfind hmax,
                scanDay_step_full busy dur dE mR t m acc hc hfind hmax]
          · rw [scanDay_step_accept busy dur dE mR t n acc hc hfind hmax,
                scanDay_step_accept busy dur dE mR t m acc hc hfind hmax]
            exact ih m (t + 30) _ (by omega) (by omega)
    · cases f2 with
      | zero =>
        rw [scanDay_step_stop busy dur dE mR t n acc hc]
        rfl
      | succ m =>
        rw [scanDay_step_stop busy dur dE mR t n acc hc,
            scanDay_step_stop busy dur dE mR t m acc hc]

theorem findSlotsLoop_stable (sd ed : Int) (busy : List timeSlot)
    (dur wsH wsM weH weM mR : Int) :
    ∀ (f1 f2 : Nat) (cd : Int) (acc : List timeSlot),
      ((ed - cd + 1439) / 1440 + 1).toNat ≤ f1 →
      ((ed - cd + 1439) / 1440 + 1).toNat ≤ f2 →
      findSlotsLoop sd ed busy dur wsH wsM weH weM mR f1 cd acc =
        findSlotsLoop sd ed busy dur wsH wsM weH weM mR f2 cd acc := by
  intro f1
  induction f1 with
  | zero =>
    intro f2 cd acc h1 h2
    have hged : ¬ (cd < ed ∧ (acc.length : Int) < mR) := by
      intro hco
      have := hco.1
      omega
    cases f2 with
    | zero => rfl
    | succ m =>
      rw [findSlotsLoop_step_stop sd ed busy dur wsH wsM weH weM mR m cd acc hged]
      rfl
  | succ n ih =>
    intro f2 cd acc h1 h2
    by_cases hcond : cd < ed ∧ (acc.length : Int) < mR
    · have hlt := hcond.1
      have hm2 : (2 : Int) ≤ (ed - cd + 1439) / 1440 + 1 := by omega
      have hdec : (ed - (cd + 1440) + 1439) / 1440 = (ed - cd + 1439) / 1440 - 1 := by omega
      cases f2 with
      | zero => exfalso; omega
      | succ m =>
        by_cases hw : weekday cd = 5 ∨ weekday cd = 6
        · rw [findSlotsLoop_step_weekend sd ed busy dur wsH wsM weH weM mR n cd acc hcond hw,
              findSlotsLoop_step_weekend sd ed busy dur wsH wsM weH weM mR m cd acc hcond hw]
          exact ih m (cd + 1440) acc (by omega) (by omega)
        · rw [findSlotsLoop_step_day sd ed busy dur wsH wsM weH weM mR n cd acc _ _
              hcond hw rfl rfl,
              findSlotsLoop_step_day sd ed busy dur wsH wsM weH weM mR m cd acc _ _
              hcond hw rfl rfl]
          exact ih m (cd + 1440) _ (by omega) (by omega)
    · cases f2 with
      | zero =>
        rw [findSlotsLoop_step_stop sd ed busy dur wsH wsM weH weM mR n cd acc hcond]
        rfl
      | succ m =>
        rw [findSlotsLoop_step_stop sd ed busy dur wsH wsM weH weM mR n cd acc hcond,
            findSlotsLoop_step_stop sd ed busy dur wsH wsM weH weM mR m cd acc hcond]

/- ### Claim theorems -/

/-- C1: for a positive duration, wall-clock working-hours configuration and a
nonnegative result bound, every slot returned by `findAvailableSlots` is
exactly `duration` long, lies entirely within the clamped working-hours
window of a weekday (never Saturday or Sunday), has no nonzero overlap with
any busy interval, and the returned list is chronologically ordered with
length at most `maxResults`. -/
theorem C1_slot_search_sound (sd ed : Int) (busy : List timeSlot) (dur : Int)
    (ws we : String) (mR : Int)
    (hdur : 0 < dur)
    (hws : validHM (parseTimeString ws).1 (parseTimeString ws).2)
    (hwe : validHM (parseTimeString we).1 (parseTimeString we).2)
    (hmr : 0 ≤ mR) :
    (∀ s ∈ findAvailableSlots sd ed busy dur ws we mR,
      slotOK sd ed dur (parseTimeString ws).1 (parseTimeString ws).2
        (parseTimeString we).1 (parseTimeString we).2 busy s) ∧
    List.Pairwise (fun a b : timeSlot => a.Start < b.Start)
      (findAvailableSlots sd ed busy dur ws we mR) ∧
    ((findAvailableSlots sd ed busy dur ws we mR).length : Int) ≤ mR := by
  obtain ⟨hOK, hPW, hlen⟩ := findAvailableSlots_sound sd ed busy dur ws we mR hdur hws hwe
  exact ⟨hOK, hPW, hlen hmr⟩

/-- Witness for C1 at a concrete input. -/
theorem C1_slot_search_sound_witness :
    ((findAvailableSlots 0 1440 [timeSlot.mk 600 660] 60 "09:00" "17:00" 5).length : Int) ≤ 5 :=
  (C1_slot_search_sound 0 1440 [timeSlot.mk 600 660] 60 "09:00" "17:00" 5
    (by decide) (by decide) (by decide) (by decide)).2.2

/-- C2: for interval collections with `Start ≤ End`, `mergeTimeSlots` returns
a collection sorted by start time, pairwise disjoint, covering exactly the
same instants as the union of the inputs; exactly-touching intervals
coalesce (09:00-10:00 and 10:00-11:00 merge to 09:00-11:00) while intervals
separated by a gap stay separate. -/
theorem C2_merge_correct (slots : List timeSlot)
    (h : ∀ z ∈ slots, z.Start ≤ z.End) :
    List.Pairwise (fun a b : timeSlot => a.Start ≤ b.Start) (mergeTimeSlots slots) ∧
    List.Pairwise (fun a b : timeSlot => a.End ≤ b.Start) (mergeTimeSlots slots) ∧
    (∀ t : Int, covers (mergeTimeSlots slots) t ↔ covers slots t) ∧
    mergeTimeSlots [timeSlot.mk 540 600, timeSlot.mk 600 660] = [timeSlot.mk 540 660] ∧
    mergeTimeSlots [timeSlot.mk 540 600, timeSlot.mk 630 660] =
      [timeSlot.mk 540 600, timeSlot.mk 630 660] :=
  ⟨merge_sorted slots h, (merge_gap slots).imp (fun hab => le_of_lt hab),
    fun t => merge_covers slots t, by decide, by decide⟩

/-- Witness for C2 at a concrete input. -/
theorem C2_merge_correct_witness :
    mergeTimeSlots [timeSlot.mk 540 600, timeSlot.mk 600 660] = [timeSlot.mk 540 660] :=
  (C2_merge_correct [timeSlot.mk 540 600, timeSlot.mk 600 660] (by decide)).2.2.2.1

/-- C3 counterexample: a call with duration 0 (hence ≤ 0) is not rejected
before the day loop — the scan runs and returns three degenerate slots, so
"no slot scan is performed on such inputs" is false. -/
theorem C3_counterexample :
    findAvailableSlots 0 1440 [] 0 "09:00" "17:00" 3 =
      [timeSlot.mk 540 540, timeSlot.mk 570 570, timeSlot.mk 600 600] := by
  decide

/-- C3 amended: no validation of duration or range order exists. A range with
`rangeEnd ≤ rangeStart` yields the empty list only because the day loop's
entry test fails, and a non-positive duration enters the scan and can return
degenerate slots. -/
theorem C3_no_validation (sd ed : Int) (busy : List timeSlot) (dur : Int)
    (ws we : String) (mR : Int) (h : ed ≤ sd) :
    findAvailableSlots sd ed busy dur ws we mR = [] ∧
    findAvailableSlots 0 1440 [] 0 "09:00" "17:00" 3 =
      [timeSlot.mk 540 540, timeSlot.mk 570 570, timeSlot.mk 600 600] := by
  constructor
  · unfold findAvailableSlots findAvailableSlotsFuel
    exact findSlotsLoop_ge_end sd ed busy dur _ _ _ _ mR (stdFuel sd ed) sd [] h
  · decide

/-- Witness for C3 amended at a concrete input. -/
theorem C3_no_validation_witness :
    findAvailableSlots 1440 0 [] 60 "09:00" "17:00" 5 = [] :=
  (C3_no_validation 1440 0 [] 60 "09:00" "17:00" 5 (by decide)).1

/-- C4 counterexample: an unparsable non-empty working-hours end string does
not default to 17:00 — the handler only replaces the empty string, and
`parseTimeString` then yields (9, 0), i.e. a 09:00-09:00 window. -/
theorem C4_counterexample :
    resolveWorkingHours "" "garbage" = ((9, 0), (9, 0)) ∧
    resolveWorkingHours "" "garbage" ≠ ((9, 0), (17, 0)) := by
  exact ⟨by decide, by decide⟩

/-- C4 amended: unspecified (empty) working-hours inputs default to
09:00-17:00 and a parse failure never aborts the call, but a non-empty
unparsable string (not two ":"-separated fields) parses to (9, 0) — so an
unparsable end becomes 09:00, not 17:00. -/
theorem C4_default_behavior (s : String) (h : (splitCols s.data).length ≠ 2) :
    resolveWorkingHours "" "" = ((9, 0), (17, 0)) ∧ parseTimeString s = (9, 0) := by
  refine ⟨by decide, ?_⟩
  unfold parseTimeString
  cases hs : splitCols s.data with
  | nil => rfl
  | cons p0 rest =>
    rw [hs] at h
    cases rest with
    | nil => rfl
    | cons p1 rest2 =>
      cases rest2 with
      | nil => simp at h
      | cons p2 rest3 => rfl

/-- Witness for C4 amended at a concrete input. -/
theorem C4_default_behavior_witness : parseTimeString "garbage" = (9, 0) :=
  (C4_default_behavior "garbage" (by decide)).2

/-- C5 counterexample: with range Monday 00:00 to Tuesday 12:00 the calendar
day containing `rangeEnd` (day index 1, Tuesday) is scanned and yields the
slot 09:00-10:00 of that very day. -/
theorem C5_counterexample :
    timeSlot.mk 1980 2040 ∈ findAvailableSlots 0 2160 [] 60 "09:00" "17:00" 100 ∧
    dayIdx 1980 = dayIdx 2160 := by
  exact ⟨by decide, by decide⟩

/-- C5 amended: the day loop starts at `rangeStart` and advances in whole-day
steps while strictly before `rangeEnd`, so the day containing `rangeEnd` can
be scanned when `rangeEnd` falls late enough in its day (counterexample);
but when `rangeEnd` is at midnight every returned slot lies entirely on a
strictly earlier calendar day. -/
theorem C5_end_day_bound (sd ed : Int) (busy : List timeSlot) (dur : Int)
    (ws we : String) (mR : Int)
    (hdur : 0 < dur)
    (hws : validHM (parseTimeString ws).1 (parseTimeString ws).2)
    (hwe : validHM (parseTimeString we).1 (parseTimeString we).2)
    (hmid : ed % 1440 = 0) :
    ∀ s ∈ findAvailableSlots sd ed busy dur ws we mR,
      dayIdx s.Start < dayIdx ed ∧ dayIdx (s.End - 1) < dayIdx ed := by
  intro s hs
  obtain ⟨hOK, _, _⟩ := findAvailableSlots_sound sd ed busy dur ws we mR hdur hws hwe
  obtain ⟨h1, ⟨d, hd5, hd6, hlo, hhi⟩, _⟩ := hOK s hs
  obtain ⟨a1, a2, a3, a4⟩ := hws
  obtain ⟨b1, b2, b3, b4⟩ := hwe
  have hlo' : 1440 * d + 60 * (parseTimeString ws).1 + (parseTimeString ws).2 ≤ s.Start :=
    le_trans (le_max_left _ _) hlo
  have hhi' : s.End ≤ 1440 * d + 60 * (parseTimeString we).1 + (parseTimeString we).2 :=
    le_trans hhi (min_le_left _ _)
  have hed : s.End ≤ ed := le_trans hhi (min_le_right _ _)
  unfold dayIdx
  omega

/-- Witness for C5 amended at a concrete input. -/
theorem C5_end_day_bound_witness :
    dayIdx 540 < dayIdx 1440 ∧ dayIdx (600 - 1) < dayIdx 1440 :=
  C5_end_day_bound 0 1440 [] 60 "09:00" "17:00" 5
    (by decide) (by decide) (by decide) (by decide)
    (timeSlot.mk 540 600) (by decide)

/-- C6: the worked example — range Monday 00:00 to Tuesday 00:00, working
hours 09:00-17:00, duration 60 minutes, busy 10:00-11:00, ample maxResults:
the first slot is 09:00-10:00 (ending exactly at the busy start is no
conflict), the 09:30 candidate conflicts and the cursor jumps to 11:00
producing 11:00-12:00, then 11:30-12:30, continuing in 30-minute steps to
the window end 16:00-17:00. -/
theorem C6_example_trace :
    findAvailableSlots 0 1440 [timeSlot.mk 600 660] 60 "09:00" "17:00" 100 =
      [timeSlot.mk 540 600, timeSlot.mk 660 720, timeSlot.mk 690 750, timeSlot.mk 720 780,
       timeSlot.mk 750 810, timeSlot.mk 780 840, timeSlot.mk 810 870, timeSlot.mk 840 900,
       timeSlot.mk 870 930, timeSlot.mk 900 960, timeSlot.mk 930 990,
       timeSlot.mk 960 1020] := by
  decide

/-- C7: merging is idempotent — `mergeTimeSlots (mergeTimeSlots S) =
mergeTimeSlots S` for every collection whose intervals satisfy
`Start ≤ End`; an already-merged collection is returned unchanged. -/
theorem C7_merge_idem (S : List timeSlot) (h : ∀ z ∈ S, z.Start ≤ z.End) :
    mergeTimeSlots (mergeTimeSlots S) = mergeTimeSlots S :=
  mergeTimeSlots_of_gap (mergeTimeSlots S) (merge_gap S) (merge_sorted S h)

/-- Witness for C7 at a concrete input. -/
theorem C7_merge_idem_witness :
    mergeTimeSlots (mergeTimeSlots [timeSlot.mk 540 600, timeSlot.mk 550 700]) =
      mergeTimeSlots [timeSlot.mk 540 600, timeSlot.mk 550 700] :=
  C7_merge_idem [timeSlot.mk 540 600, timeSlot.mk 550 700] (by decide)

/-- C8 counterexample: with window 09:00-10:15 and duration 60 the search
returns a single slot although fewer than `maxResults` were produced and a
further valid slot (09:15-10:15) exists in the range — so the count is not
`min(count of all valid slots, maxResults)`. -/
theorem C8_counterexample :
    findAvailableSlots 0 1440 [] 60 "09:00" "10:15" 5 = [timeSlot.mk 540 600] ∧
    slotOK 0 1440 60 9 0 10 15 [] (timeSlot.mk 555 615) ∧
    timeSlot.mk 555 615 ∉ findAvailableSlots 0 1440 [] 60 "09:00" "10:15" 5 := by
  refine ⟨by decide, ?_, by decide⟩
  exact ⟨rfl, ⟨0, by decide, by decide, by decide, by decide⟩, by simp⟩

/-- C8 amended: the number of returned slots is at most
`min(maxResults, count of valid slots in range)` — every returned slot is a
valid slot and they are pairwise distinct — but equality fails in general
because the scan only visits cursor positions (counterexample). -/
theorem C8_at_most_min (sd ed : Int) (busy : List timeSlot) (dur : Int)
    (ws we : String) (mR : Int)
    (hdur : 0 < dur)
    (hws : validHM (parseTimeString ws).1 (parseTimeString ws).2)
    (hwe : validHM (parseTimeString we).1 (parseTimeString we).2)
    (hmr : 0 ≤ mR) :
    ((findAvailableSlots sd ed busy dur ws we mR).length : Int) ≤
      min mR ((validStarts sd ed dur (parseTimeString ws).1 (parseTimeString ws).2
        (parseTimeString we).1 (parseTimeString we).2 busy).length : Int) := by
  obtain ⟨hOK, hPW, hlen⟩ := findAvailableSlots_sound sd ed busy dur ws we mR hdur hws hwe
  rw [le_min_iff]
  refine ⟨hlen hmr, ?_⟩
  have hnd : ((findAvailableSlots sd ed busy dur ws we mR).map timeSlot.Start).Nodup :=
    List.Pairwise.imp (fun hab => ne_of_lt hab) (List.pairwise_map.mpr hPW)
  have hsub : ((findAvailableSlots sd ed busy dur ws we mR).map timeSlot.Start) ⊆
      validStarts sd ed dur (parseTimeString ws).1 (parseTimeString ws).2
        (parseTimeString we).1 (parseTimeString we).2 busy := by
    intro t ht
    obtain ⟨s, hs, rfl⟩ := List.mem_map.mp ht
    obtain ⟨h1, ⟨d, hd5, hd6, hlo, hhi⟩, hbusy⟩ := hOK s hs
    have hsd : sd ≤ s.Start := le_trans (le_max_right _ _) hlo
    have hub : s.Start < ed := by
      have hend : s.End ≤ ed := le_trans hhi (min_le_right _ _)
      omega
    unfold validStarts
    rw [List.mem_filter]
    refine ⟨?_, ?_⟩
    · rw [List.mem_map]
      exact ⟨(s.Start - sd).toNat, List.mem_range.mpr (by omega), by omega⟩
    · rw [decide_eq_true_eq]
      exact slotOK_imp_at sd ed dur _ _ _ _ busy s hdur hws hwe
        ⟨h1, ⟨d, hd5, hd6, hlo, hhi⟩, hbusy⟩
  have hle := (List.Nodup.subperm hnd hsub).length_le
  rw [List.length_map] at hle
  exact_mod_cast hle

/-- Witness for C8 amended at a concrete input. -/
theorem C8_at_most_min_witness :
    ((findAvailableSlots 0 1440 [timeSlot.mk 600 660] 60 "09:00" "17:00" 5).length : Int) ≤
      min 5 ((validStarts 0 1440 60 (parseTimeString "09:00").1 (parseTimeString "09:00").2
        (parseTimeString "17:00").1 (parseTimeString "17:00").2
        [timeSlot.mk 600 660]).length : Int) :=
  C8_at_most_min 0 1440 [timeSlot.mk 600 660] 60 "09:00" "17:00" 5
    (by decide) (by decide) (by decide) (by decide)

/-- C9: a failing calendar fetch is skipped, not fatal: inserting a failed
calendar anywhere in the requested list leaves the collected busy intervals
and detail records — and hence the merged set and the slot search — exactly
as they are for the successful calendars alone, and no error is raised (the
collection is a total function). -/
theorem C9_failed_calendar_skipped (room : String)
    (pre post : List (String × Option (List eventItem))) (calId : String)
    (sd ed dur mR : Int) (ws we : String) :
    collectCalendars room (pre ++ (calId, none) :: post) =
      collectCalendars room (pre ++ post) ∧
    mergeTimeSlots (collectCalendars room (pre ++ (calId, none) :: post)).1 =
      mergeTimeSlots (collectCalendars room (pre ++ post)).1 ∧
    findAvailableSlots sd ed
        (mergeTimeSlots (collectCalendars room (pre ++ (calId, none) :: post)).1)
        dur ws we mR =
      findAvailableSlots sd ed
        (mergeTimeSlots (collectCalendars room (pre ++ post)).1) dur ws we mR := by
  have key : collectCalendars room (pre ++ (calId, none) :: post) =
      collectCalendars room (pre ++ post) := by
    induction pre with
    | nil => rfl
    | cons hd rest ih =>
      obtain ⟨cid, fr⟩ := hd
      cases fr with
      | none =>
        simp only [List.cons_append, collectCalendars]
        exact ih
      | some evs =>
        simp only [List.cons_append, collectCalendars, List.append_eq]
        rw [ih]
  exact ⟨key, by rw [key], by rw [key]⟩

/-- C10: `findAvailableSlots` terminates on every input — non-positive
durations, arbitrary busy sets and `maxResults` of any sign included: the
outer loop converges within the prescribed per-day fuel (extra fuel never
changes the result), and the inner scan converges within its cursor-measure
bound because every iteration strictly advances the cursor (by 30 minutes on
acceptance, or to the conflicting busy interval's strictly later end). -/
theorem C10_terminates (sd ed : Int) (busy : List timeSlot) (dur : Int)
    (ws we : String) (mR : Int) (extra : Nat)
    (dur2 dE2 mR2 t : Int) (acc : List timeSlot) (extra2 : Nat) :
    findAvailableSlotsFuel (stdFuel sd ed + extra) sd ed busy dur ws we mR =
      findAvailableSlots sd ed busy dur ws we mR ∧
    scanDay busy dur2 dE2 mR2 ((dE2 - dur2 - t + 2).toNat + extra2) t acc =
      scanDay busy dur2 dE2 mR2 ((dE2 - dur2 - t + 2).toNat) t acc := by
  constructor
  · have h := findSlotsLoop_stable sd ed busy dur
      (parseTimeString ws).1 (parseTimeString ws).2
      (parseTimeString we).1 (parseTimeString we).2 mR
      (stdFuel sd ed + extra) (stdFuel sd ed) sd []
      (by unfold stdFuel; omega) (by unfold stdFuel; omega)
    unfold findAvailableSlots findAvailableSlotsFuel
    exact h
  · exact scanDay_stable busy dur2 dE2 mR2 _ _ t acc (by omega) (by omega)
